import Mathlib

/-!
Shallow embedding of the quantum circuit simulator of
`src/src/pages/CircuitVisualizer.tsx` (the `simulateCircuit` callback and the
data types it manipulates).  JavaScript floating-point numbers are idealized
as exact reals (`ℝ`), `Math.SQRT1_2` as `Real.sqrt (1/2)` and
`Math.cos (Math.PI/4)` / `Math.sin (Math.PI/4)` as `Real.cos (π/4)` /
`Real.sin (π/4)`; the ambient random source `Math.random()` is modelled as an
explicit stream `rand : ℕ → ℝ` of draws, one per shot.
-/

noncomputable section

namespace CircuitVisualizer

/-- A complex number stored as `{ real, imag }` component records, as in the
`QubitState` interface of the source. -/
structure Complex2 where
  real : ℝ
  imag : ℝ

/-- The source's `interface QubitState { alpha; beta }`: the two amplitudes of one qubit. -/
structure QubitState where
  alpha : Complex2
  beta : Complex2

instance : Inhabited Complex2 := ⟨⟨0, 0⟩⟩

instance : Inhabited QubitState := ⟨⟨⟨0, 0⟩, ⟨0, 0⟩⟩⟩

/-- The source's `type GateType = 'H' | 'X' | 'Y' | 'Z' | 'CNOT' | 'T' | 'S' | 'M'`. -/
inductive GateType where
  | H | X | Y | Z | CNOT | T | S | M
  deriving DecidableEq, Repr

/-- The source's `interface Gate { id; type; qubit; controlQubit? }`. -/
structure Gate where
  id : String
  type : GateType
  qubit : ℕ
  controlQubit : Option ℕ := none

/-- The constant `Math.SQRT1_2`, the square root of one half (named `sqrt2` locally in the
source's Hadamard branch). -/
def SQRT1_2 : ℝ := Real.sqrt (1 / 2)

/-- The constant `Math.cos(Math.PI / 4)` from the source's `T` branch. -/
def cosPi4 : ℝ := Real.cos (Real.pi / 4)

/-- The constant `Math.sin(Math.PI / 4)` from the source's `T` branch. -/
def sinPi4 : ℝ := Real.sin (Real.pi / 4)

/-- The `switch (gate.type)` body of `simulateCircuit`, acting on the state of
the target qubit `states[q]`.  The `CNOT` and `M` gate types have no `case` in
the source switch, so they leave the state unchanged. -/
def applySwitch (g : GateType) (s : QubitState) : QubitState :=
  match g with
  | .H =>
      { alpha := ⟨SQRT1_2 * (s.alpha.real + s.beta.real),
                  SQRT1_2 * (s.alpha.imag + s.beta.imag)⟩,
        beta  := ⟨SQRT1_2 * (s.alpha.real - s.beta.real),
                  SQRT1_2 * (s.alpha.imag - s.beta.imag)⟩ }
  | .X => { alpha := s.beta, beta := s.alpha }
  | .Z => { s with beta := ⟨-s.beta.real, -s.beta.imag⟩ }
  | .Y => { alpha := ⟨s.beta.imag, -s.beta.real⟩,
            beta  := ⟨-s.alpha.imag, s.alpha.real⟩ }
  | .S => { s with beta := ⟨-s.beta.imag, s.beta.real⟩ }
  | .T => { s with beta := ⟨cosPi4 * s.beta.real - sinPi4 * s.beta.imag,
                            sinPi4 * s.beta.real + cosPi4 * s.beta.imag⟩ }
  | .CNOT => s
  | .M => s

/-- One iteration of the `gates.forEach` loop: `const q = gate.qubit;
if (q >= numQubits) return;` then the switch on `gate.type` updates
`states[q]`. -/
def applyGateToStates (numQubits : ℕ) (states : List QubitState) (gate : Gate) :
    List QubitState :=
  if gate.qubit ≥ numQubits then states
  else states.set gate.qubit (applySwitch gate.type (states.getD gate.qubit default))

/-- The initializer `Array(numQubits).fill(null).map(...)`: an array of
`numQubits` states with `alpha = 1 + 0i` and `beta = 0 + 0i`, so every qubit
starts in `|0⟩`. -/
def initialStates (numQubits : ℕ) : List QubitState :=
  List.replicate numQubits ⟨⟨1, 0⟩, ⟨0, 0⟩⟩

/-- The states after the `gates.forEach(...)` loop. -/
def finalStates (numQubits : ℕ) (gates : List Gate) : List QubitState :=
  gates.foldl (applyGateToStates numQubits) (initialStates numQubits)

/-- The expression `amplitude.real * amplitude.real + amplitude.imag *
amplitude.imag`:
the squared magnitude of one amplitude. -/
def ampProbOf (c : Complex2) : ℝ := c.real * c.real + c.imag * c.imag

/-- The norm `|α|² + |β|²` that the spec's invariants talk about. -/
def normOf (s : QubitState) : ℝ := ampProbOf s.alpha + ampProbOf s.beta

/-- The expression `(i >> (numQubits - 1 - q)) & 1`: the bit of basis index `i` picked out for
qubit `q` (qubit 0 reads the most significant bit). -/
def bitOf (numQubits i q : ℕ) : ℕ := (i >>> (numQubits - 1 - q)) % 2

/-- The inner `for (let q = 0; ...)` loop computing one joint probability:
`prob` starts at 1 and is multiplied by `|α|²` or `|β|²` for each qubit,
selecting by the bit of `i` at that qubit's position. -/
def probOf (states : List QubitState) (numQubits i : ℕ) : ℝ :=
  (List.range numQubits).foldl
    (fun prob q =>
      let state := states.getD q default
      let amplitude := if bitOf numQubits i q = 0 then state.alpha else state.beta
      prob * ampProbOf amplitude) 1

/-- The `probabilities` array: one entry per basis index `i < 2^numQubits`. -/
def probabilities (states : List QubitState) (numQubits : ℕ) : List ℝ :=
  (List.range (2 ^ numQubits)).map (probOf states numQubits)

/-- The reduction `probabilities.reduce((a, b) => a + b, 0)`. -/
def totalOf (ps : List ℝ) : ℝ := ps.foldl (· + ·) 0

/-- The map `probabilities.map(p => p / total)`. -/
def normalize (ps : List ℝ) : List ℝ := ps.map (fun p => p / totalOf ps)

/-- The inner sampling loop for one shot: walk the `normalized` list
accumulating `cumulative` and return the first index `j` with
`r <= cumulative`, or `none` when the loop falls through without a `break`. -/
def pickIndexAux (r : ℝ) : List ℝ → ℝ → ℕ → Option ℕ
  | [], _, _ => none
  | p :: ps, cumulative, j =>
      if r ≤ cumulative + p then some j else pickIndexAux r ps (cumulative + p) (j + 1)

/-- The basis-state index sampled for one uniform draw `r`. -/
def pickIndex (normalized : List ℝ) (r : ℝ) : Option ℕ :=
  pickIndexAux r normalized 0 0

/-- The `counts` record built by the shot loop, keyed by basis index rather
than by the rendered bitstring (`j.toString(2).padStart(numQubits, '0')` is
injective on `j < 2^numQubits`, see `toBitstring_injOn`, so the two keyings
agree); `counts[state] = (counts[state] || 0) + 1` per assigned shot. -/
def stepCounts (normalized : List ℝ) (r : ℝ) (counts : ℕ → ℕ) : ℕ → ℕ :=
  match pickIndex normalized r with
  | some j => fun k => if k = j then counts k + 1 else counts k
  | none => counts

/-- The full shot loop: one `stepCounts` per draw, starting from the empty
record. -/
def countsOf (normalized : List ℝ) (rand : ℕ → ℝ) (shots : ℕ) : ℕ → ℕ :=
  (List.range shots).foldl
    (fun counts i => stepCounts normalized (rand i) counts)
    (fun _ => 0)

/-- JavaScript digit characters for base 2. -/
def binChar (b : ℕ) : Char := if b = 1 then '1' else '0'

/-- The rendering `j.toString(2)`: the binary rendering of a natural number, most significant
digit first, `"0"` for zero. -/
def natToBin (i : ℕ) : List Char :=
  if i < 2 then [binChar i]
  else natToBin (i / 2) ++ [binChar (i % 2)]
  decreasing_by exact Nat.div_lt_self (by omega) (by omega)

/-- The call `.padStart(numQubits, '0')` on a character list. -/
def padStartChar (n : ℕ) (s : List Char) : List Char :=
  List.replicate (n - s.length) '0' ++ s

/-- The label `j.toString(2).padStart(numQubits, '0')`: the bitstring label of basis
index `j`. -/
def toBitstring (numQubits j : ℕ) : List Char :=
  padStartChar numQubits (natToBin j)

/-- One element of the `results` array: `{ state, probability: count / shots,
count }`. -/
structure Outcome where
  state : List Char
  probability : ℝ
  count : ℕ

/-- The `results` array, built as `Object.entries(counts).map(...)` with
fields `state`, `probability: count / shots` and `count`: the entries present in the record are exactly the
basis indices with a nonzero count.  The source additionally sorts this list
by descending `count`; the claims under consideration are about the multiset
of outcomes (their number, fields, and probability sum), which sorting leaves
unchanged, so the entries are kept in basis-index order here. -/
def resultsOf (numQubits : ℕ) (counts : ℕ → ℕ) (shots : ℕ) : List Outcome :=
  ((List.range (2 ^ numQubits)).filter (fun j => counts j ≠ 0)).map
    (fun j => ⟨toBitstring numQubits j, (counts j : ℝ) / (shots : ℝ), counts j⟩)

/-- The output of one `simulateCircuit` run: the final per-qubit states
(`setQubitStates(states)`) and the measurement results
(`setMeasurementResults(results)`). -/
structure RunResult where
  finalStates : List QubitState
  results : List Outcome

/-- The function `simulateCircuit`, as a pure function of the circuit settings and the
stream of uniform draws consumed by the shot loop. -/
def simulateCircuit (numQubits : ℕ) (gates : List Gate) (shots : ℕ)
    (rand : ℕ → ℝ) : RunResult :=
  let states := finalStates numQubits gates
  let normalized := normalize (probabilities states numQubits)
  let counts := countsOf normalized rand shots
  ⟨states, resultsOf numQubits counts shots⟩

/-- The source `simulateCircuit` contains no input validation and no `throw`;
embedding it with an explicit exception channel (to make the spec's claimed
`InvalidArgument` failure statable) therefore always returns `.ok`. -/
inductive SimError where
  | invalidArgument
  deriving DecidableEq, Repr

/-- The function `simulateCircuit` with an explicit exception channel.  The TypeScript
function body has no validation branch and no throw statement, so every input
— including `numQubits < 1` or `shots < 1` — produces a normal result. -/
def simulateCircuitE (numQubits : ℕ) (gates : List Gate) (shots : ℕ)
    (rand : ℕ → ℝ) : Except SimError RunResult :=
  Except.ok (simulateCircuit numQubits gates shots rand)

/-! ### Basic facts about the idealized constants -/

lemma SQRT1_2_mul_self : SQRT1_2 * SQRT1_2 = 1 / 2 :=
  Real.mul_self_sqrt (by norm_num)

lemma cosPi4_mul_self : cosPi4 * cosPi4 = 1 / 2 := by
  have h : Real.sqrt 2 * Real.sqrt 2 = 2 := Real.mul_self_sqrt (by norm_num)
  rw [cosPi4, Real.cos_pi_div_four, div_mul_div_comm, h]
  norm_num

lemma sinPi4_mul_self : sinPi4 * sinPi4 = 1 / 2 := by
  have h : Real.sqrt 2 * Real.sqrt 2 = 2 := Real.mul_self_sqrt (by norm_num)
  rw [sinPi4, Real.sin_pi_div_four, div_mul_div_comm, h]
  norm_num

lemma cosPi4_mul_sinPi4 : cosPi4 * sinPi4 = 1 / 2 := by
  have h : Real.sqrt 2 * Real.sqrt 2 = 2 := Real.mul_self_sqrt (by norm_num)
  rw [cosPi4, sinPi4, Real.cos_pi_div_four, Real.sin_pi_div_four, div_mul_div_comm, h]
  norm_num

/-- Setting an index of a list to the value already stored there is the
identity. -/
lemma set_getD_self {α : Type} : ∀ (l : List α) (i : ℕ) (d : α), i < l.length →
    l.set i (l.getD i d) = l
  | _ :: _, 0, _, _ => by simp
  | a :: l, i + 1, d, h => by
      simpa using set_getD_self l i d (by simpa using h)

/-- Every branch of the gate switch preserves `|α|² + |β|²` exactly (for
CNOT and M trivially, since they do nothing). -/
lemma normOf_applySwitch (g : GateType) (s : QubitState) :
    normOf (applySwitch g s) = normOf s := by
  obtain ⟨⟨ar, ai⟩, ⟨br, bi⟩⟩ := s
  cases g <;> simp only [applySwitch, normOf, ampProbOf]
  · linear_combination (2 * (ar * ar + ai * ai + br * br + bi * bi)) * SQRT1_2_mul_self
  · ring
  · ring
  · ring
  · linear_combination (br * br + bi * bi) * cosPi4_mul_self +
      (br * br + bi * bi) * sinPi4_mul_self
  · ring

/-! ### Claim theorems: single-gate algebra -/

/-- C2: for every single-qubit state and each of the implemented gate kinds
H, X, Y, Z, S, T, one gate application leaves the norm `|α|² + |β|²`
unchanged (exactly, over the exact-real idealization). -/
theorem c2_gates_preserve_norm (s : QubitState) :
    normOf (applySwitch .H s) = normOf s ∧
    normOf (applySwitch .X s) = normOf s ∧
    normOf (applySwitch .Y s) = normOf s ∧
    normOf (applySwitch .Z s) = normOf s ∧
    normOf (applySwitch .S s) = normOf s ∧
    normOf (applySwitch .T s) = normOf s :=
  ⟨normOf_applySwitch .H s, normOf_applySwitch .X s, normOf_applySwitch .Y s,
   normOf_applySwitch .Z s, normOf_applySwitch .S s, normOf_applySwitch .T s⟩

/-- C7: the four involutory gates X, Y, Z, H return the original state when
applied twice (exactly, over the exact-real idealization). -/
theorem c7_involutory_gates (s : QubitState) :
    applySwitch .X (applySwitch .X s) = s ∧
    applySwitch .Y (applySwitch .Y s) = s ∧
    applySwitch .Z (applySwitch .Z s) = s ∧
    applySwitch .H (applySwitch .H s) = s := by
  obtain ⟨⟨ar, ai⟩, ⟨br, bi⟩⟩ := s
  refine ⟨rfl, ?_, ?_, ?_⟩ <;>
    (simp only [applySwitch]
     rw [QubitState.mk.injEq, Complex2.mk.injEq, Complex2.mk.injEq])
  · exact ⟨⟨by ring, by ring⟩, by ring, by ring⟩
  · exact ⟨⟨rfl, rfl⟩, by ring, by ring⟩
  · refine ⟨⟨?_, ?_⟩, ?_, ?_⟩
    · linear_combination 2 * ar * SQRT1_2_mul_self
    · linear_combination 2 * ai * SQRT1_2_mul_self
    · linear_combination 2 * br * SQRT1_2_mul_self
    · linear_combination 2 * bi * SQRT1_2_mul_self

/-- C8: applying the S gate twice coincides with applying the Z gate once, on
every single-qubit state. -/
theorem c8_s_squared_eq_z (s : QubitState) :
    applySwitch .S (applySwitch .S s) = applySwitch .Z s := rfl

/-- C9: applying the T gate twice coincides with applying the S gate once, on
every single-qubit state (exactly, with `cos(π/4) = sin(π/4) = 1/√2`). -/
theorem c9_t_squared_eq_s (s : QubitState) :
    applySwitch .T (applySwitch .T s) = applySwitch .S s := by
  obtain ⟨⟨ar, ai⟩, ⟨br, bi⟩⟩ := s
  simp only [applySwitch]
  rw [QubitState.mk.injEq, Complex2.mk.injEq, Complex2.mk.injEq]
  refine ⟨⟨rfl, rfl⟩, ?_, ?_⟩
  · linear_combination br * cosPi4_mul_self - br * sinPi4_mul_self -
      2 * bi * cosPi4_mul_sinPi4
  · linear_combination 2 * br * cosPi4_mul_sinPi4 + bi * cosPi4_mul_self -
      bi * sinPi4_mul_self

/-- C10: a gate of kind CNOT or M leaves every qubit state in the array
unchanged, for every state array and every target/control index: the source
switch has no case for these kinds, so the loop body does nothing to the
states. -/
theorem c10_cnot_measure_noop (numQubits : ℕ) (states : List QubitState)
    (ids : String) (q : ℕ) (c : Option ℕ) :
    applyGateToStates numQubits states ⟨ids, .CNOT, q, c⟩ = states ∧
    applyGateToStates numQubits states ⟨ids, .M, q, c⟩ = states := by
  constructor <;>
  · unfold applyGateToStates
    split
    · rfl
    · show states.set q (states.getD q default) = states
      rcases Nat.lt_or_ge q states.length with h | h
      · exact set_getD_self states q default h
      · exact List.set_eq_of_length_le h

/-- C4: a gate whose target qubit is at or beyond `numQubits` is silently
skipped: the state array is returned unchanged and nothing fails. -/
theorem c4_out_of_range_gate_noop (numQubits : ℕ) (states : List QubitState)
    (gate : Gate) (h : numQubits ≤ gate.qubit) :
    applyGateToStates numQubits states gate = states := by
  unfold applyGateToStates
  exact if_pos h

/-- Witness for C4 at a concrete out-of-range gate. -/
theorem c4_out_of_range_gate_noop_witness :
    applyGateToStates 1 (initialStates 1) ⟨"g0", .H, 5, none⟩ = initialStates 1 :=
  c4_out_of_range_gate_noop 1 (initialStates 1) ⟨"g0", .H, 5, none⟩ (by norm_num)

/-! ### Bridges between the source's folds and `Finset` sums/products -/

lemma foldl_mul_prod (g : ℕ → ℝ) (n : ℕ) : ∀ a : ℝ,
    (List.range n).foldl (fun p q => p * g q) a = a * ∏ q ∈ Finset.range n, g q := by
  induction n with
  | zero => intro a; simp
  | succ m ih =>
      intro a
      rw [List.range_succ, List.foldl_append, ih, Finset.prod_range_succ]
      simp only [List.foldl_cons, List.foldl_nil]
      ring

lemma foldl_add_init (ps : List ℝ) : ∀ a : ℝ, ps.foldl (· + ·) a = a + ps.sum := by
  induction ps with
  | nil => intro a; simp
  | cons p ps ih => intro a; rw [List.foldl_cons, ih, List.sum_cons]; ring

lemma totalOf_eq_sum (ps : List ℝ) : totalOf ps = ps.sum := by
  rw [totalOf, foldl_add_init, zero_add]

lemma sum_map_div (ps : List ℝ) (t : ℝ) :
    (ps.map (fun p => p / t)).sum = ps.sum / t := by
  induction ps with
  | nil => simp
  | cons p ps ih => simp [ih, add_div]

lemma sum_map_range (g : ℕ → ℝ) (n : ℕ) :
    ((List.range n).map g).sum = ∑ i ∈ Finset.range n, g i := by
  induction n with
  | zero => simp
  | succ m ih =>
      rw [List.range_succ, List.map_append, List.sum_append, ih, Finset.sum_range_succ]
      simp

lemma filter_map_sum (p : ℕ → Bool) (f : ℕ → ℝ) (l : List ℕ) :
    ((l.filter p).map f).sum = (l.map (fun x => if p x then f x else 0)).sum := by
  induction l with
  | nil => simp
  | cons x l ih => by_cases h : p x <;> simp [List.filter_cons, h, ih]

/-! ### The joint probabilities as products over bits -/

/-- The per-qubit factor of the joint probability, indexed by bit position
`j` from the least significant end (`j = numQubits - 1 - q`). -/
def marginalAmp (states : List QubitState) (numQubits j b : ℕ) : ℝ :=
  ampProbOf (if b = 0 then (states.getD (numQubits - 1 - j) default).alpha
             else (states.getD (numQubits - 1 - j) default).beta)

lemma probOf_eq_prod (states : List QubitState) (n i : ℕ) :
    probOf states n i = ∏ q ∈ Finset.range n,
      ampProbOf (if bitOf n i q = 0 then (states.getD q default).alpha
                 else (states.getD q default).beta) := by
  have h := foldl_mul_prod
    (fun q => ampProbOf (if bitOf n i q = 0 then (states.getD q default).alpha
                         else (states.getD q default).beta)) n 1
  rw [one_mul] at h
  exact h

lemma shiftRight_mod_two_of_lt {i n : ℕ} (h : i < 2 ^ n) : (i >>> n) % 2 = 0 := by
  rw [Nat.shiftRight_eq_div_pow, Nat.div_eq_of_lt h]

lemma shiftRight_add_pow_of_lt {i j n : ℕ} (hj : j < n) :
    ((2 ^ n + i) >>> j) % 2 = (i >>> j) % 2 := by
  rw [Nat.shiftRight_eq_div_pow, Nat.shiftRight_eq_div_pow]
  have h1 : 2 ^ n = 2 ^ (n - j) * 2 ^ j := by
    rw [← pow_add]
    congr 1
    omega
  have h2 : 2 ^ (n - j) = 2 ^ (n - j - 1) * 2 := by
    rw [mul_comm, ← pow_succ']
    congr 1
    omega
  rw [h1, Nat.add_comm, Nat.add_mul_div_right _ _ (Nat.two_pow_pos j), h2,
    Nat.add_mul_mod_self_right]

lemma shiftRight_add_pow_self {i n : ℕ} (h : i < 2 ^ n) :
    ((2 ^ n + i) >>> n) % 2 = 1 := by
  rw [Nat.shiftRight_eq_div_pow, Nat.add_comm,
    Nat.add_div_right _ (Nat.two_pow_pos n), Nat.div_eq_of_lt h]

/-- Distributivity of the sum of bit-indexed products: summing the product of
per-bit factors over all `2^n` basis indices factors into a product of
per-bit sums. -/
lemma sum_prod_bits (h : ℕ → ℕ → ℝ) (n : ℕ) :
    ∑ i ∈ Finset.range (2 ^ n), ∏ j ∈ Finset.range n, h j ((i >>> j) % 2) =
      ∏ j ∈ Finset.range n, (h j 0 + h j 1) := by
  induction n with
  | zero => simp
  | succ m ih =>
      have hsplit : (2 : ℕ) ^ (m + 1) = 2 ^ m + 2 ^ m := by ring
      rw [hsplit, Finset.sum_range_add]
      have h1 : ∀ i ∈ Finset.range (2 ^ m),
          ∏ j ∈ Finset.range (m + 1), h j ((i >>> j) % 2) =
            (∏ j ∈ Finset.range m, h j ((i >>> j) % 2)) * h m 0 := by
        intro i hi
        rw [Finset.prod_range_succ, shiftRight_mod_two_of_lt (Finset.mem_range.mp hi)]
      have h2 : ∀ i ∈ Finset.range (2 ^ m),
          ∏ j ∈ Finset.range (m + 1), h j (((2 ^ m + i) >>> j) % 2) =
            (∏ j ∈ Finset.range m, h j ((i >>> j) % 2)) * h m 1 := by
        intro i hi
        rw [Finset.prod_range_succ, shiftRight_add_pow_self (Finset.mem_range.mp hi)]
        congr 1
        exact Finset.prod_congr rfl fun j hj =>
          congrArg (h j) (shiftRight_add_pow_of_lt (Finset.mem_range.mp hj))
      rw [Finset.sum_congr rfl h1, Finset.sum_congr rfl h2, ← Finset.sum_mul,
        ← Finset.sum_mul, ih, Finset.prod_range_succ]
      ring

/-- The sum of all `2^n` joint probabilities is the product of the per-qubit
norms. -/
lemma sum_probOf (states : List QubitState) (n : ℕ) :
    ∑ i ∈ Finset.range (2 ^ n), probOf states n i =
      ∏ q ∈ Finset.range n, normOf (states.getD q default) := by
  have key : ∀ i, probOf states n i =
      ∏ j ∈ Finset.range n, marginalAmp states n j ((i >>> j) % 2) := by
    intro i
    rw [probOf_eq_prod]
    calc
      ∏ q ∈ Finset.range n,
          ampProbOf (if bitOf n i q = 0 then (states.getD q default).alpha
                     else (states.getD q default).beta) =
          ∏ q ∈ Finset.range n, marginalAmp states n (n - 1 - q) ((i >>> (n - 1 - q)) % 2) := by
        refine Finset.prod_congr rfl fun q hq => ?_
        have hq' : q < n := Finset.mem_range.mp hq
        have harg : n - 1 - (n - 1 - q) = q := by omega
        unfold marginalAmp bitOf
        rw [harg]
      _ = ∏ j ∈ Finset.range n, marginalAmp states n j ((i >>> j) % 2) :=
        Finset.prod_range_reflect (fun j => marginalAmp states n j ((i >>> j) % 2)) n
  rw [Finset.sum_congr rfl fun i _ => key i, sum_prod_bits]
  calc
    ∏ j ∈ Finset.range n, (marginalAmp states n j 0 + marginalAmp states n j 1) =
        ∏ j ∈ Finset.range n, normOf (states.getD (n - 1 - j) default) := by
      refine Finset.prod_congr rfl fun j hj => ?_
      simp [marginalAmp, normOf]
    _ = ∏ q ∈ Finset.range n, normOf (states.getD q default) :=
      Finset.prod_range_reflect (fun q => normOf (states.getD q default)) n

/-! ### Invariants of the gate loop -/

lemma applyGateToStates_length (n : ℕ) (l : List QubitState) (g : Gate) :
    (applyGateToStates n l g).length = l.length := by
  unfold applyGateToStates
  split
  · rfl
  · exact List.length_set l _ _

lemma getD_mem {α : Type} [Inhabited α] {l : List α} {i : ℕ} (h : i < l.length) :
    l.getD i default ∈ l := by
  rw [List.getD_eq_getElem?_getD, List.getElem?_eq_getElem h, Option.getD_some]
  exact List.getElem_mem h

lemma foldl_gates_invariant (n : ℕ) (gates : List Gate) :
    ∀ l : List QubitState, l.length = n → (∀ s ∈ l, normOf s = 1) →
      (gates.foldl (applyGateToStates n) l).length = n ∧
        ∀ s ∈ gates.foldl (applyGateToStates n) l, normOf s = 1 := by
  induction gates with
  | nil => intro l h1 h2; exact ⟨h1, h2⟩
  | cons g gs ih =>
      intro l h1 h2
      rw [List.foldl_cons]
      apply ih
      · rw [applyGateToStates_length]; exact h1
      · intro s hs
        unfold applyGateToStates at hs
        by_cases hq : g.qubit ≥ n
        · rw [if_pos hq] at hs; exact h2 s hs
        · rw [if_neg hq] at hs
          rcases List.mem_or_eq_of_mem_set hs with h | h
          · exact h2 s h
          · rw [h, normOf_applySwitch]
            exact h2 _ (getD_mem (by omega))

lemma finalStates_length (n : ℕ) (gates : List Gate) :
    (finalStates n gates).length = n :=
  (foldl_gates_invariant n gates (initialStates n) (List.length_replicate n _)
    (fun s hs => by
      rw [(List.mem_replicate.mp hs).2]
      norm_num [normOf, ampProbOf])).1

lemma finalStates_norms (n : ℕ) (gates : List Gate) :
    ∀ s ∈ finalStates n gates, normOf s = 1 :=
  (foldl_gates_invariant n gates (initialStates n) (List.length_replicate n _)
    (fun s hs => by
      rw [(List.mem_replicate.mp hs).2]
      norm_num [normOf, ampProbOf])).2

/-- The un-normalized probabilities of a run sum to exactly 1 over the
exact-real idealization: the source's explicit normalization divides by 1. -/
lemma totalOf_probabilities (n : ℕ) (gates : List Gate) :
    totalOf (probabilities (finalStates n gates) n) = 1 := by
  rw [totalOf_eq_sum, probabilities, sum_map_range, sum_probOf]
  refine Finset.prod_eq_one fun q hq => ?_
  refine finalStates_norms n gates _ (getD_mem ?_)
  rw [finalStates_length]
  exact Finset.mem_range.mp hq

lemma normalize_sum_one {ps : List ℝ} (h : totalOf ps = 1) :
    (normalize ps).sum = 1 := by
  rw [normalize, sum_map_div, h, ← totalOf_eq_sum, h]
  norm_num

/-! ### The sampling loop -/

/-- If the draw is at most the starting offset plus the total mass of a
nonempty list, the cumulative walk finds an index, and that index is within
the list. -/
lemma pickIndexAux_isSome (r : ℝ) : ∀ (ps : List ℝ) (cum : ℝ) (j : ℕ),
    ps ≠ [] → r ≤ cum + ps.sum →
    ∃ k, pickIndexAux r ps cum j = some k ∧ k < j + ps.length := by
  intro ps
  induction ps with
  | nil => intro _ _ h _; exact absurd rfl h
  | cons p ps ih =>
      intro cum j _ hr
      unfold pickIndexAux
      by_cases hc : r ≤ cum + p
      · exact ⟨j, by rw [if_pos hc], by simp⟩
      · rw [if_neg hc]
        rcases List.eq_nil_or_concat ps with hnil | _
        · subst hnil
          simp only [List.sum_cons, List.sum_nil, add_zero] at hr
          exact absurd hr hc
        · have hne : ps ≠ [] := by
            rintro rfl
            simp only [List.sum_cons, List.sum_nil, add_zero] at hr
            exact hc hr
          obtain ⟨k, hk, hkb⟩ := ih (cum + p) (j + 1) hne
            (by rw [List.sum_cons] at hr; linarith)
          exact ⟨k, hk, by simp at hkb ⊢; omega⟩

lemma pickIndex_isSome {normalized : List ℝ} {r : ℝ}
    (hne : normalized ≠ []) (hr : r ≤ normalized.sum) :
    ∃ k, pickIndex normalized r = some k ∧ k < normalized.length := by
  obtain ⟨k, hk, hkb⟩ := pickIndexAux_isSome r normalized 0 0 hne (by linarith)
  exact ⟨k, hk, by omega⟩

/-! ### The counts record -/

lemma stepCounts_some {normalized : List ℝ} {r : ℝ} {j : ℕ}
    (h : pickIndex normalized r = some j) (counts : ℕ → ℕ) :
    stepCounts normalized r counts = fun k => if k = j then counts k + 1 else counts k := by
  unfold stepCounts
  rw [h]

lemma sum_update_at (acc : ℕ → ℕ) {m k : ℕ} (hk : k < m) :
    ∑ j ∈ Finset.range m, (if j = k then acc j + 1 else acc j) =
      (∑ j ∈ Finset.range m, acc j) + 1 := by
  have hpt : ∀ j, (if j = k then acc j + 1 else acc j) =
      acc j + (if j = k then 1 else 0) := by
    intro j
    by_cases h : j = k <;> simp [h]
  rw [Finset.sum_congr rfl fun j _ => hpt j, Finset.sum_add_distrib,
    Finset.sum_ite_eq' (Finset.range m) k fun _ => 1,
    if_pos (Finset.mem_range.mpr hk)]

lemma sum_countsFold (normalized : List ℝ) (rand : ℕ → ℝ) (m : ℕ) :
    ∀ (L : List ℕ) (acc : ℕ → ℕ),
      (∀ i ∈ L, ∃ k, pickIndex normalized (rand i) = some k ∧ k < m) →
      ∑ j ∈ Finset.range m,
          (L.foldl (fun counts i => stepCounts normalized (rand i) counts) acc) j =
        (∑ j ∈ Finset.range m, acc j) + L.length := by
  intro L
  induction L with
  | nil => intro acc _; simp
  | cons i L ih =>
      intro acc hL
      obtain ⟨k, hk, hkm⟩ := hL i (List.mem_cons_self i L)
      rw [List.foldl_cons, stepCounts_some hk acc,
        ih _ fun i' hi' => hL i' (List.mem_cons_of_mem _ hi'),
        sum_update_at acc hkm, List.length_cons]
      omega

/-- The counts over all basis indices account for every shot, when every draw
is assigned. -/
lemma sum_countsOf (normalized : List ℝ) (rand : ℕ → ℝ) (shots m : ℕ)
    (h : ∀ i, ∃ k, pickIndex normalized (rand i) = some k ∧ k < m) :
    ∑ j ∈ Finset.range m, countsOf normalized rand shots j = shots := by
  have := sum_countsFold normalized rand m (List.range shots) (fun _ => 0)
    (fun i _ => h i)
  simpa [countsOf] using this

/-! ### Claim theorem: probability normalization of a full run -/

/-- C3: for every qubit count ≥ 1, every gate sequence, every shot count ≥ 1
and every stream of uniform draws in `[0,1)`, the `probability` fields of the
outcomes returned by a run sum to exactly 1 (every draw is assigned to some
bitstring, and the counts sum to the shot count). -/
theorem c3_outcome_probabilities_sum_to_one (numQubits : ℕ) (gates : List Gate)
    (shots : ℕ) (rand : ℕ → ℝ) (_hn : 1 ≤ numQubits) (hs : 1 ≤ shots)
    (hr : ∀ i, 0 ≤ rand i ∧ rand i < 1) :
    ((simulateCircuit numQubits gates shots rand).results.map Outcome.probability).sum
      = 1 := by
  have htot : totalOf (probabilities (finalStates numQubits gates) numQubits) = 1 :=
    totalOf_probabilities numQubits gates
  have hnsum : (normalize (probabilities (finalStates numQubits gates) numQubits)).sum = 1 :=
    normalize_sum_one htot
  have hlen : (normalize (probabilities (finalStates numQubits gates) numQubits)).length
      = 2 ^ numQubits := by
    simp [normalize, probabilities]
  have hne : normalize (probabilities (finalStates numQubits gates) numQubits) ≠ [] := by
    intro h0
    rw [h0] at hlen
    have := Nat.two_pow_pos numQubits
    simp at hlen
    omega
  have hpick : ∀ i, ∃ k,
      pickIndex (normalize (probabilities (finalStates numQubits gates) numQubits))
          (rand i) = some k ∧ k < 2 ^ numQubits := by
    intro i
    have hle : rand i ≤
        (normalize (probabilities (finalStates numQubits gates) numQubits)).sum := by
      rw [hnsum]
      exact le_of_lt (hr i).2
    obtain ⟨k, hk, hkb⟩ := pickIndex_isSome hne hle
    rw [hlen] at hkb
    exact ⟨k, hk, hkb⟩
  have hcnt : ∑ j ∈ Finset.range (2 ^ numQubits),
      countsOf (normalize (probabilities (finalStates numQubits gates) numQubits))
        rand shots j = shots :=
    sum_countsOf _ rand shots _ hpick
  show ((resultsOf numQubits
      (countsOf (normalize (probabilities (finalStates numQubits gates) numQubits))
        rand shots) shots).map Outcome.probability).sum = 1
  set counts := countsOf (normalize (probabilities (finalStates numQubits gates) numQubits))
    rand shots with hcdef
  unfold resultsOf
  rw [List.map_map]
  have hcomp : (Outcome.probability ∘ fun j =>
      Outcome.mk (toBitstring numQubits j) ((counts j : ℝ) / (shots : ℝ)) (counts j)) =
      fun j => (counts j : ℝ) / (shots : ℝ) := rfl
  rw [hcomp, filter_map_sum, sum_map_range]
  have hsum2 : (∑ j ∈ Finset.range (2 ^ numQubits),
        if decide (counts j ≠ 0) = true then (counts j : ℝ) / (shots : ℝ) else 0) =
      ∑ j ∈ Finset.range (2 ^ numQubits), (counts j : ℝ) / (shots : ℝ) :=
    Finset.sum_congr rfl fun j _ => by
      by_cases h : counts j = 0
      · simp [h]
      · simp [h]
  rw [hsum2, ← Finset.sum_div, ← Nat.cast_sum, hcnt]
  exact div_self (Nat.cast_ne_zero.mpr (by omega))

/-- Witness for C3: a one-qubit, one-shot Hadamard run with the zero draw. -/
theorem c3_outcome_probabilities_sum_to_one_witness :
    ((simulateCircuit 1 [⟨"g0", .H, 0, none⟩] 1 (fun _ => 0)).results.map
      Outcome.probability).sum = 1 :=
  c3_outcome_probabilities_sum_to_one 1 [⟨"g0", .H, 0, none⟩] 1 (fun _ => 0)
    (le_refl 1) (le_refl 1) (fun _ => ⟨le_refl 0, by norm_num⟩)

/-! ### The empty-circuit run -/

lemma exists_odd_shift : ∀ i : ℕ, i ≠ 0 → ∃ j, (i >>> j) % 2 = 1 := by
  intro i
  induction i using Nat.strong_induction_on with
  | _ i ih =>
    intro h
    by_cases hp : i % 2 = 1
    · exact ⟨0, by simpa using hp⟩
    · have h2 : i / 2 ≠ 0 := by omega
      obtain ⟨j, hj⟩ := ih (i / 2) (by omega) h2
      refine ⟨j + 1, ?_⟩
      rw [Nat.shiftRight_eq_div_pow] at hj ⊢
      rw [pow_succ', ← Nat.div_div_eq_div_mul]
      exact hj

lemma shift_lt_bound {i n j : ℕ} (hlt : i < 2 ^ n) (hj : (i >>> j) % 2 = 1) :
    j < n := by
  by_contra h
  push_neg at h
  rw [Nat.shiftRight_eq_div_pow,
    Nat.div_eq_of_lt (lt_of_lt_of_le hlt (Nat.pow_le_pow_right (by norm_num) h))] at hj
  omega

lemma getD_replicate_of_lt {α : Type} [Inhabited α] {n q : ℕ} {a : α} (h : q < n) :
    (List.replicate n a).getD q default = a := by
  rw [List.getD_eq_getElem?_getD, List.getElem?_eq_getElem (by simpa using h),
    Option.getD_some, List.getElem_replicate]

lemma probOf_initial_zero (n : ℕ) : probOf (initialStates n) n 0 = 1 := by
  rw [probOf_eq_prod]
  refine Finset.prod_eq_one fun q hq => ?_
  rw [initialStates, getD_replicate_of_lt (Finset.mem_range.mp hq)]
  norm_num [bitOf, ampProbOf]

lemma probOf_initial_ne (n i : ℕ) (h0 : i ≠ 0) (hlt : i < 2 ^ n) :
    probOf (initialStates n) n i = 0 := by
  rw [probOf_eq_prod]
  obtain ⟨j, hj⟩ := exists_odd_shift i h0
  have hjn : j < n := shift_lt_bound hlt hj
  refine Finset.prod_eq_zero (Finset.mem_range.mpr (show n - 1 - j < n by omega)) ?_
  have hbit : bitOf n i (n - 1 - j) = 1 := by
    unfold bitOf
    rw [show n - 1 - (n - 1 - j) = j by omega, hj]
  rw [hbit, initialStates, getD_replicate_of_lt (by omega)]
  norm_num [ampProbOf]

lemma pickIndex_head_one {ps : List ℝ} {p : ℝ} {rest : List ℝ} (h : ps = p :: rest)
    (hp : 1 ≤ p) {r : ℝ} (hr : r < 1) : pickIndex ps r = some 0 := by
  subst h
  unfold pickIndex pickIndexAux
  rw [if_pos (by linarith)]

lemma pickIndex_initial (n : ℕ) (_hn : 1 ≤ n) {r : ℝ} (hr : r < 1) :
    pickIndex (normalize (probabilities (initialStates n) n)) r = some 0 := by
  have htot : totalOf (probabilities (initialStates n) n) = 1 :=
    totalOf_probabilities n []
  obtain ⟨m, hm⟩ : ∃ m, 2 ^ n = m + 1 :=
    ⟨2 ^ n - 1, by have := Nat.two_pow_pos n; omega⟩
  have h1 : probabilities (initialStates n) n =
      probOf (initialStates n) n 0 ::
        ((List.range m).map Nat.succ).map (probOf (initialStates n) n) := by
    rw [probabilities, hm, List.range_succ_eq_map, List.map_cons]
  rw [normalize, htot, h1, List.map_cons, probOf_initial_zero, div_one]
  exact pickIndex_head_one rfl (le_refl 1) hr

lemma countsFold_all_zero {normalized : List ℝ} {rand : ℕ → ℝ}
    (h0 : ∀ i, pickIndex normalized (rand i) = some 0) :
    ∀ (L : List ℕ) (acc : ℕ → ℕ),
      L.foldl (fun c i => stepCounts normalized (rand i) c) acc =
        fun k => if k = 0 then acc k + L.length else acc k := by
  intro L
  induction L with
  | nil =>
      intro acc
      funext k
      by_cases h : k = 0 <;> simp [h]
  | cons i L ih =>
      intro acc
      rw [List.foldl_cons, stepCounts_some (h0 i) acc, ih]
      funext k
      by_cases h : k = 0
      · simp [h]
        omega
      · simp [h]

lemma countsOf_all_zero {normalized : List ℝ} {rand : ℕ → ℝ} {shots : ℕ}
    (h0 : ∀ i, pickIndex normalized (rand i) = some 0) :
    countsOf normalized rand shots = fun k => if k = 0 then shots else 0 := by
  rw [countsOf, countsFold_all_zero h0]
  funext k
  by_cases h : k = 0 <;> simp [h]

lemma toBitstring_zeros (n : ℕ) (hn : 1 ≤ n) :
    toBitstring n 0 = List.replicate n '0' := by
  have h0 : natToBin 0 = ['0'] := by
    unfold natToBin
    norm_num [binChar]
  rw [toBitstring, h0, padStartChar]
  conv_rhs => rw [show n = (n - 1) + 1 by omega, List.replicate_succ' (n - 1) '0']
  simp

lemma resultsOf_single (n shots : ℕ) (hn : 1 ≤ n) (hs : 1 ≤ shots) :
    resultsOf n (fun k => if k = 0 then shots else 0) shots =
      [⟨List.replicate n '0', 1, shots⟩] := by
  unfold resultsOf
  obtain ⟨m, hm⟩ : ∃ m, 2 ^ n = m + 1 :=
    ⟨2 ^ n - 1, by have := Nat.two_pow_pos n; omega⟩
  rw [hm, List.range_succ_eq_map]
  have hsne : shots ≠ 0 := by omega
  have hnil : ((List.range m).map Nat.succ).filter
      (fun j => decide ((if j = 0 then shots else 0) ≠ 0)) = [] := by
    rw [List.filter_eq_nil_iff]
    intro a ha
    obtain ⟨b, _, rfl⟩ := List.mem_map.mp ha
    simp
  rw [List.filter_cons, hnil]
  simp [hsne, toBitstring_zeros n hn,
    div_self (Nat.cast_ne_zero.mpr hsne : (shots : ℝ) ≠ 0)]

/-- C6: running an empty gate list with any qubit count ≥ 1 and shot count
≥ 1 yields exactly one outcome — the all-zeros bitstring — with count equal
to the shot count and probability 1, for every stream of draws in `[0,1)`. -/
theorem c6_empty_gates (numQubits shots : ℕ) (rand : ℕ → ℝ)
    (hn : 1 ≤ numQubits) (hs : 1 ≤ shots) (hr : ∀ i, 0 ≤ rand i ∧ rand i < 1) :
    (simulateCircuit numQubits [] shots rand).results =
      [⟨List.replicate numQubits '0', 1, shots⟩] := by
  have hpick : ∀ i, pickIndex
      (normalize (probabilities (initialStates numQubits) numQubits)) (rand i) =
        some 0 :=
    fun i => pickIndex_initial numQubits hn (hr i).2
  show resultsOf numQubits
      (countsOf (normalize (probabilities (initialStates numQubits) numQubits))
        rand shots) shots = _
  rw [countsOf_all_zero hpick]
  exact resultsOf_single numQubits shots hn hs

/-- Witness for C6: one qubit, one shot, zero draw. -/
theorem c6_empty_gates_witness :
    (simulateCircuit 1 [] 1 (fun _ => 0)).results = [⟨List.replicate 1 '0', 1, 1⟩] :=
  c6_empty_gates 1 1 (fun _ => 0) (le_refl 1) (le_refl 1)
    (fun _ => ⟨le_refl 0, by norm_num⟩)

/-! ### The rendered bitstring: `toString(2).padStart` digit by digit -/

lemma getD_map_range {α : Type} (f : ℕ → α) {N q : ℕ} (hq : q < N) (d : α) :
    ((List.range N).map f).getD q d = f q := by
  rw [List.getD_eq_getElem?_getD, List.getElem?_eq_getElem (by simpa using hq)]
  simp

lemma natToBin_length_le : ∀ i n : ℕ, 1 ≤ n → i < 2 ^ n → (natToBin i).length ≤ n := by
  intro i
  induction i using Nat.strong_induction_on with
  | _ i ih =>
    intro n hn hi
    by_cases h2 : i < 2
    · rw [natToBin, if_pos h2]
      simpa using hn
    · have hn2 : 2 ≤ n := by
        rcases Nat.lt_or_ge n 2 with h' | h'
        · exfalso
          have hn1 : n = 1 := by omega
          rw [hn1] at hi
          omega
        · exact h'
      have hpow : 2 ^ n = 2 * 2 ^ (n - 1) := by
        rw [← pow_succ']
        congr 1
        omega
      have hdiv : i / 2 < 2 ^ (n - 1) := by omega
      have hlen := ih (i / 2) (by omega) (n - 1) (by omega) hdiv
      rw [natToBin, if_neg h2, List.length_append]
      simp only [List.length_cons, List.length_nil]
      omega

lemma natToBin_length_eq : ∀ (n i : ℕ), 2 ^ n ≤ i → i < 2 ^ (n + 1) →
    (natToBin i).length = n + 1 := by
  intro n
  induction n with
  | zero =>
      intro i h1 h2
      have h1' : 1 ≤ i := by simpa using h1
      have h2' : i < 2 := by simpa using h2
      have : i = 1 := by omega
      rw [this, natToBin]
      norm_num
  | succ m ih =>
      intro i h1 h2
      have hpow1 : 2 ^ (m + 1) = 2 * 2 ^ m := by rw [← pow_succ']
      have hpow2 : 2 ^ (m + 2) = 2 * 2 ^ (m + 1) := by rw [← pow_succ']
      have hge : 2 ≤ i := by
        have : (2:ℕ) ≤ 2 ^ (m + 1) := by
          calc (2:ℕ) = 2 ^ 1 := by norm_num
          _ ≤ 2 ^ (m + 1) := Nat.pow_le_pow_right (by norm_num) (by omega)
        omega
      have hd1 : 2 ^ m ≤ i / 2 := by omega
      have hd2 : i / 2 < 2 ^ (m + 1) := by omega
      rw [natToBin, if_neg (by omega), List.length_append, ih (i / 2) hd1 hd2]
      simp

lemma shiftRight_div_two (i k : ℕ) : (i / 2) >>> k = i >>> (k + 1) := by
  rw [Nat.shiftRight_eq_div_pow, Nat.shiftRight_eq_div_pow,
    Nat.div_div_eq_div_mul, ← pow_succ']

/-- The padded binary rendering of `i < 2^n` reads, character by character,
the bits of `i` from most significant (`q = 0`) to least significant
(`q = n - 1`). -/
lemma toBitstring_eq_map : ∀ n : ℕ, 1 ≤ n → ∀ i, i < 2 ^ n →
    toBitstring n i = (List.range n).map (fun q => binChar (bitOf n i q)) := by
  intro n hn
  induction n, hn using Nat.le_induction with
  | base =>
      intro i hi
      have : i = 0 ∨ i = 1 := by omega
      have hr1 : List.range 1 = [0] := rfl
      rcases this with rfl | rfl <;>
        · rw [toBitstring, natToBin, padStartChar, hr1]
          norm_num [binChar, bitOf]
  | succ n hn ih =>
      intro i hi
      have hpow : 2 ^ (n + 1) = 2 * 2 ^ n := by rw [← pow_succ']
      rcases Nat.lt_or_ge i (2 ^ n) with hlt | hge
      · -- leading bit 0: one pad character, then the n-bit rendering
        have hlen : (natToBin i).length ≤ n := natToBin_length_le i n hn hlt
        have hpadded : toBitstring (n + 1) i = '0' :: toBitstring n i := by
          rw [toBitstring, toBitstring, padStartChar, padStartChar,
            show n + 1 - (natToBin i).length = (n - (natToBin i).length) + 1 by omega,
            List.replicate_succ]
          rfl
        rw [hpadded, ih i hlt, List.range_succ_eq_map, List.map_cons, List.map_map]
        congr 1
        · -- head: the most significant bit of i < 2^n is 0
          rw [show bitOf (n + 1) i 0 = (i >>> n) % 2 by simp [bitOf],
            shiftRight_mod_two_of_lt hlt]
          rfl
        · refine List.map_congr_left fun q hq => ?_
          have hq' : q < n := List.mem_range.mp hq
          simp only [Function.comp_apply]
          congr 1
          rw [bitOf, bitOf]
          congr 2
          omega
      · -- leading bit 1: no padding, peel the last digit
        have hlen : (natToBin i).length = n + 1 := natToBin_length_eq n i hge hi
        have hge2 : 2 ≤ i := by
          have : (2:ℕ) ≤ 2 ^ n := by
            calc (2:ℕ) = 2 ^ 1 := by norm_num
            _ ≤ 2 ^ n := Nat.pow_le_pow_right (by norm_num) (by omega)
          omega
        have hd1 : 2 ^ (n - 1) ≤ i / 2 := by
          have h := hge
          have hp : 2 ^ n = 2 * 2 ^ (n - 1) := by
            rw [← pow_succ']
            congr 1
            omega
          omega
        have hd2 : i / 2 < 2 ^ n := by omega
        have hlen2 : (natToBin (i / 2)).length = n := by
          have := natToBin_length_eq (n - 1) (i / 2) hd1
            (by rw [show n - 1 + 1 = n by omega]; exact hd2)
          rw [this]
          omega
        have hnopad : toBitstring (n + 1) i = natToBin i := by
          rw [toBitstring, padStartChar, hlen]
          simp
        have hstep : natToBin i = natToBin (i / 2) ++ [binChar (i % 2)] := by
          rw [natToBin, if_neg (by omega)]
        have hrec : natToBin (i / 2) =
            (List.range n).map (fun q => binChar (bitOf n (i / 2) q)) := by
          have h := ih (i / 2) hd2
          rw [toBitstring, padStartChar, hlen2] at h
          simpa using h
        rw [hnopad, hstep, hrec, List.range_succ, List.map_append]
        congr 1
        · refine List.map_congr_left fun q hq => ?_
          have hq' : q < n := List.mem_range.mp hq
          congr 1
          rw [bitOf, bitOf, show n + 1 - 1 - q = (n - 1 - q) + 1 by omega,
            ← shiftRight_div_two]
        · simp only [List.map_cons, List.map_nil]
          congr 2
          rw [bitOf, show n + 1 - 1 - n = 0 by omega, Nat.shiftRight_zero]


/-- The bitstring labels are pairwise distinct below `2^numQubits`, so keying
the counts record by basis index is equivalent to the source's keying by
rendered bitstring. -/
lemma toBitstring_injOn {n i j : ℕ} (hn : 1 ≤ n) (hi : i < 2 ^ n) (hj : j < 2 ^ n)
    (h : toBitstring n i = toBitstring n j) : i = j := by
  rw [toBitstring_eq_map n hn i hi, toBitstring_eq_map n hn j hj] at h
  have hbit : ∀ q, q < n → bitOf n i q = bitOf n j q := by
    intro q hq
    have hg := congrArg (fun l => l.getD q '0') h
    simp only at hg
    rw [getD_map_range _ hq, getD_map_range _ hq] at hg
    have hbi : bitOf n i q < 2 := Nat.mod_lt _ (by norm_num)
    have hbj : bitOf n j q < 2 := Nat.mod_lt _ (by norm_num)
    rcases (show bitOf n i q = 0 ∨ bitOf n i q = 1 by omega) with h1 | h1 <;>
      rcases (show bitOf n j q = 0 ∨ bitOf n j q = 1 by omega) with h2 | h2 <;>
        rw [h1, h2] at hg ⊢ <;>
          first
          | rfl
          | exact absurd hg (by decide)
  apply Nat.eq_of_testBit_eq
  intro k
  rcases Nat.lt_or_ge k n with hk | hk
  · have hb := hbit (n - 1 - k) (by omega)
    rw [bitOf, bitOf, show n - 1 - (n - 1 - k) = k by omega] at hb
    rw [Nat.shiftRight_eq_div_pow, Nat.shiftRight_eq_div_pow] at hb
    rw [Nat.testBit_to_div_mod, Nat.testBit_to_div_mod, hb]
  · have h1 : i / 2 ^ k = 0 :=
      Nat.div_eq_of_lt (lt_of_lt_of_le hi (Nat.pow_le_pow_right (by norm_num) hk))
    have h2 : j / 2 ^ k = 0 :=
      Nat.div_eq_of_lt (lt_of_lt_of_le hj (Nat.pow_le_pow_right (by norm_num) hk))
    rw [Nat.testBit_to_div_mod, Nat.testBit_to_div_mod, h1, h2]

/-- C5: the pre-normalization joint probability computed for basis index `i`
(whose rendered label is the bitstring `toBitstring numQubits i`) is the
product, over qubits `q`, of `|α|²` when the `q`-th character of the bitstring
is '0' and `|β|²` when it is '1' — qubit 0 reads the most significant bit. -/
theorem c5_prenormalization_probability (states : List QubitState)
    (numQubits i : ℕ) (hn : 1 ≤ numQubits) (hi : i < 2 ^ numQubits) :
    (probabilities states numQubits).getD i 0 =
      ∏ q ∈ Finset.range numQubits,
        (if (toBitstring numQubits i).getD q '0' = '1'
         then ampProbOf (states.getD q default).beta
         else ampProbOf (states.getD q default).alpha) := by
  rw [probabilities, getD_map_range _ hi, probOf_eq_prod]
  refine Finset.prod_congr rfl fun q hq => ?_
  have hq' : q < numQubits := Finset.mem_range.mp hq
  rw [toBitstring_eq_map numQubits hn i hi, getD_map_range _ hq']
  have hb : bitOf numQubits i q = 0 ∨ bitOf numQubits i q = 1 := by
    have : bitOf numQubits i q < 2 := Nat.mod_lt _ (by norm_num)
    omega
  rcases hb with hb | hb <;> rw [hb] <;> simp [binChar]

/-- Witness for C5 at one qubit, basis index 1 (bitstring "1"). -/
theorem c5_prenormalization_probability_witness :
    (probabilities (initialStates 1) 1).getD 1 0 =
      ∏ q ∈ Finset.range 1,
        (if (toBitstring 1 1).getD q '0' = '1'
         then ampProbOf ((initialStates 1).getD q default).beta
         else ampProbOf ((initialStates 1).getD q default).alpha) :=
  c5_prenormalization_probability (initialStates 1) 1 1 (le_refl 1) (by norm_num)

/-! ### Claim theorems: (absent) input validation -/

/-- C1 counterexample: at `numQubits = 0 < 1` (with `shots = 1`) the function
does not fail with `InvalidArgument` — there is no validation anywhere in the
body, so the run returns a normal result. -/
theorem c1_counterexample :
    simulateCircuitE 0 [] 1 (fun _ => 0) ≠ Except.error SimError.invalidArgument :=
  fun h => Except.noConfusion h

/-- C1 (amended): `simulateCircuit` performs no input validation at all: for
every input — including `numQubits < 1` or `shots < 1` — it raises no error
and returns a normal result. -/
theorem c1_no_validation_never_errors (numQubits : ℕ) (gates : List Gate)
    (shots : ℕ) (rand : ℕ → ℝ) :
    ∃ out, simulateCircuitE numQubits gates shots rand = Except.ok out :=
  ⟨simulateCircuit numQubits gates shots rand, rfl⟩

end CircuitVisualizer

end
